import Mathlib

/-!
Verification of `ycbcr.py`: a one-shot generator of 16.16 fixed-point
integer coefficients for RGB <-> YCbCr conversion (limited range).

The program is embedded over `ℚ`: the Python floats are read as exact
rationals, `numpy.linalg.inv` on the 3x3 matrix is the exact matrix
inverse (adjugate over determinant), the `.round()` of `numpy` is
round-half-to-even, and the Python `>> 16` on integers is floor division
by 65536.  The embedded integer coefficient matrices were checked to
coincide with the ones the floating-point program computes.
-/

namespace YCbCr

/-- Round to the nearest integer, ties to even: the behaviour of the
`numpy` method `.round()` (and of Python 3 `round`). -/
def rnd (q : ℚ) : ℤ :=
  if q - (⌊q⌋ : ℚ) < 1 / 2 then ⌊q⌋
  else if 1 / 2 < q - (⌊q⌋ : ℚ) then ⌊q⌋ + 1
  else if ⌊q⌋ % 2 = 0 then ⌊q⌋ else ⌊q⌋ + 1

/-- A 3x3 matrix of rationals, row-major fields. -/
@[ext] structure Mat3 where
  m00 : ℚ
  m01 : ℚ
  m02 : ℚ
  m10 : ℚ
  m11 : ℚ
  m12 : ℚ
  m20 : ℚ
  m21 : ℚ
  m22 : ℚ

/-- Determinant of a 3x3 matrix (cofactor expansion along the first row). -/
def det3 (m : Mat3) : ℚ :=
  m.m00 * (m.m11 * m.m22 - m.m12 * m.m21)
  - m.m01 * (m.m10 * m.m22 - m.m12 * m.m20)
  + m.m02 * (m.m10 * m.m21 - m.m11 * m.m20)

/-- Model of `numpy.linalg.inv` on a 3x3 matrix: the exact inverse,
written as the adjugate divided by the determinant. -/
def inv3 (m : Mat3) : Mat3 where
  m00 := (m.m11 * m.m22 - m.m12 * m.m21) / det3 m
  m01 := -(m.m01 * m.m22 - m.m02 * m.m21) / det3 m
  m02 := (m.m01 * m.m12 - m.m02 * m.m11) / det3 m
  m10 := -(m.m10 * m.m22 - m.m12 * m.m20) / det3 m
  m11 := (m.m00 * m.m22 - m.m02 * m.m20) / det3 m
  m12 := -(m.m00 * m.m12 - m.m02 * m.m10) / det3 m
  m20 := (m.m10 * m.m21 - m.m11 * m.m20) / det3 m
  m21 := -(m.m00 * m.m21 - m.m01 * m.m20) / det3 m
  m22 := (m.m00 * m.m11 - m.m01 * m.m10) / det3 m

/-- Product of two 3x3 matrices. -/
def mul3 (m n : Mat3) : Mat3 where
  m00 := m.m00 * n.m00 + m.m01 * n.m10 + m.m02 * n.m20
  m01 := m.m00 * n.m01 + m.m01 * n.m11 + m.m02 * n.m21
  m02 := m.m00 * n.m02 + m.m01 * n.m12 + m.m02 * n.m22
  m10 := m.m10 * n.m00 + m.m11 * n.m10 + m.m12 * n.m20
  m11 := m.m10 * n.m01 + m.m11 * n.m11 + m.m12 * n.m21
  m12 := m.m10 * n.m02 + m.m11 * n.m12 + m.m12 * n.m22
  m20 := m.m20 * n.m00 + m.m21 * n.m10 + m.m22 * n.m20
  m21 := m.m20 * n.m01 + m.m21 * n.m11 + m.m22 * n.m21
  m22 := m.m20 * n.m02 + m.m21 * n.m12 + m.m22 * n.m22

/-- The 3x3 identity matrix. -/
def id3 : Mat3 := ⟨1, 0, 0, 0, 1, 0, 0, 0, 1⟩

/-- The weight constant of the program, `kb = 0.0722`: ITU-R BT.709 (HDTV). -/
def kb : ℚ := 0.0722

/-- The weight constant of the program, `kr = 0.2126`: ITU-R BT.709 (HDTV). -/
def kr : ℚ := 0.2126

/-- The forward matrix `A` exactly as the source builds it (including the
self-cancelling entries `0.5*(1-kb)/(1-kb)` and `0.5*(1.0-kr)/(1-kr)`). -/
def A (kb kr : ℚ) : Mat3 where
  m00 := kr
  m01 := 1 - kr - kb
  m02 := kb
  m10 := 0.5 * (-kr) / (1 - kb)
  m11 := 0.5 * (-(1 - kr - kb)) / (1 - kb)
  m12 := 0.5 * (1 - kb) / (1 - kb)
  m20 := 0.5 * (1.0 - kr) / (1 - kr)
  m21 := 0.5 * (-(1 - kr - kb)) / (1 - kr)
  m22 := 0.5 * (-kb) / (1 - kr)

/-- The forward matrix as the specification writes it: row 0
`[kr, 1-kr-kb, kb]`, row 1 `[-0.5*kr/(1-kb), -0.5*(1-kr-kb)/(1-kb), 0.5]`,
row 2 `[0.5, -0.5*(1-kr-kb)/(1-kr), -0.5*kb/(1-kr)]`. -/
def specA (kb kr : ℚ) : Mat3 where
  m00 := kr
  m01 := 1 - kr - kb
  m02 := kb
  m10 := -0.5 * kr / (1 - kb)
  m11 := -0.5 * (1 - kr - kb) / (1 - kb)
  m12 := 0.5
  m20 := 0.5
  m21 := -0.5 * (1 - kr - kb) / (1 - kr)
  m22 := -0.5 * kb / (1 - kr)

/-- The inverse matrix `B = linalg.inv(A)`, computed before any scaling. -/
def B (kb kr : ℚ) : Mat3 := inv3 (A kb kr)

/-- One emitted row: a bias followed by three multiplicative coefficients,
all integers. -/
structure Row4 where
  bias : ℤ
  c0 : ℤ
  c1 : ℤ
  c2 : ℤ

/-- The three rows the program emits for RGB -> YCbCr: row 0 of `A` scaled
by `65536*219/255`, rows 1 and 2 scaled by `65536*224/255`, every entry
rounded, and the bias `16*65536+32768` (luma) or `128*65536+32768`
(chroma) prepended. -/
def fwdRows (kb kr : ℚ) : Row4 × Row4 × Row4 :=
  let M := A kb kr
  (⟨16 * 65536 + 32768, rnd (M.m00 * (65536 * 219 / 255)),
      rnd (M.m01 * (65536 * 219 / 255)), rnd (M.m02 * (65536 * 219 / 255))⟩,
   ⟨128 * 65536 + 32768, rnd (M.m10 * (65536 * 224 / 255)),
      rnd (M.m11 * (65536 * 224 / 255)), rnd (M.m12 * (65536 * 224 / 255))⟩,
   ⟨128 * 65536 + 32768, rnd (M.m20 * (65536 * 224 / 255)),
      rnd (M.m21 * (65536 * 224 / 255)), rnd (M.m22 * (65536 * 224 / 255))⟩)

/-- The three rows the program emits for YCbCr -> RGB: row 0 of `B` scaled
by `65536*255/219`, rows 1 and 2 scaled by `65536*255/224`, every entry
rounded, and the bias `32768` prepended to every row. -/
def invRows (kb kr : ℚ) : Row4 × Row4 × Row4 :=
  let M := B kb kr
  (⟨32768, rnd (M.m00 * (65536 * 255 / 219)),
      rnd (M.m01 * (65536 * 255 / 219)), rnd (M.m02 * (65536 * 255 / 219))⟩,
   ⟨32768, rnd (M.m10 * (65536 * 255 / 224)),
      rnd (M.m11 * (65536 * 255 / 224)), rnd (M.m12 * (65536 * 255 / 224))⟩,
   ⟨32768, rnd (M.m20 * (65536 * 255 / 224)),
      rnd (M.m21 * (65536 * 255 / 224)), rnd (M.m22 * (65536 * 255 / 224))⟩)

/-- The pre-shift value of an emitted row: `bias + c0*x1 + c1*x2 + c2*x3`. -/
def rowPre (w : Row4) (x1 x2 x3 : ℤ) : ℤ :=
  w.bias + w.c0 * x1 + w.c1 * x2 + w.c2 * x3

/-- Evaluate an emitted expression `(bias + c0*x1 + c1*x2 + c2*x3)>>16`;
the Python `>>` on integers is floor division. -/
def applyRow (w : Row4) (x1 x2 x3 : ℤ) : ℤ :=
  Int.fdiv (rowPre w x1 x2 x3) 65536

/-- The emitted forward transform applied to a pixel. -/
def rgbToYCbCr (kb kr : ℚ) (r g b : ℤ) : ℤ × ℤ × ℤ :=
  match fwdRows kb kr with
  | (w0, w1, w2) => (applyRow w0 r g b, applyRow w1 r g b, applyRow w2 r g b)

/-- The emitted inverse transform applied to a YCbCr triple: first
`y -= 16; cb -= 128; cr -= 128`, then the three row expressions. -/
def yCbCrToRgb (kb kr : ℚ) (y cb cr : ℤ) : ℤ × ℤ × ℤ :=
  match invRows kb kr with
  | (w0, w1, w2) =>
      (applyRow w0 (y - 16) (cb - 128) (cr - 128),
       applyRow w1 (y - 16) (cb - 128) (cr - 128),
       applyRow w2 (y - 16) (cb - 128) (cr - 128))

/-- Forward then inverse emitted transform. -/
def roundTrip (kb kr : ℚ) (r g b : ℤ) : ℤ × ℤ × ℤ :=
  match rgbToYCbCr kb kr r g b with
  | (y, cb, cr) => yCbCrToRgb kb kr y cb cr

/-- One printed formula line: the Python format string
`(%d + %d*r + %d*g + %d*b)>>16` filled by `tuple(map(int, row))`, with
`%d` rendering a base-10 signed integer. -/
def exprLine (x1 x2 x3 : String) (w : Row4) : String :=
  "(" ++ toString w.bias ++ " + " ++ toString w.c0 ++ "*" ++ x1 ++ " + "
      ++ toString w.c1 ++ "*" ++ x2 ++ " + " ++ toString w.c2 ++ "*" ++ x3
      ++ ")>>16"

/-- Everything the program prints, one list entry per `print` call. -/
def output (kb kr : ℚ) : List String :=
  match fwdRows kb kr, invRows kb kr with
  | (a0, a1, a2), (b0, b1, b2) =>
      ["", "RGB to YCbCr:",
       exprLine "r" "g" "b" a0, exprLine "r" "g" "b" a1, exprLine "r" "g" "b" a2,
       "", "YCbCr to RGB:", "y -= 16", "cb -= 128", "cr -= 128",
       exprLine "y" "cb" "cr" b0, exprLine "y" "cb" "cr" b1,
       exprLine "y" "cb" "cr" b2]

/-- The byte-exact text on standard output (each `print` appends a newline). -/
def outputText (kb kr : ℚ) : String :=
  String.intercalate "\n" (output kb kr) ++ "\n"

/-- The error class of the program: a zero denominator while building `A`
(Python `ZeroDivisionError`), or a singular `A` (`numpy.linalg.LinAlgError`). -/
inductive RunError where
  | divisionByZero : RunError
  | singularMatrix : RunError

/-- The whole program: build `A` (raising on a zero denominator), invert it
(raising when `A` is singular), then print.  In the source every `print`
comes after both steps, so an error yields no output at all. -/
def run (kb kr : ℚ) : Except RunError (List String) :=
  if 1 - kb = 0 then Except.error RunError.divisionByZero
  else if 1 - kr = 0 then Except.error RunError.divisionByZero
  else if det3 (A kb kr) = 0 then Except.error RunError.singularMatrix
  else Except.ok (output kb kr)

/-! ## General lemmas -/

/-- Round-half-to-even differs from its argument by at most one half. -/
theorem abs_rnd_sub_le_half (q : ℚ) : |(rnd q : ℚ) - q| ≤ 1 / 2 := by
  have h0 : ((⌊q⌋ : ℤ) : ℚ) ≤ q := Int.floor_le q
  have h1 : q < ((⌊q⌋ : ℤ) : ℚ) + 1 := Int.lt_floor_add_one q
  unfold rnd
  split
  · next h =>
    rw [abs_le]; constructor <;> push_cast <;> linarith
  · next h =>
    split
    · next h2 =>
      rw [abs_le]; constructor <;> push_cast <;> linarith
    · next h2 =>
      have he : q - ((⌊q⌋ : ℤ) : ℚ) = 1 / 2 :=
        le_antisymm (not_lt.mp h2) (not_lt.mp h)
      split <;> (rw [abs_le]; constructor <;> push_cast <;> linarith)

/-- The adjugate-over-determinant matrix is a right inverse whenever the
determinant does not vanish. -/
theorem mul3_inv3_eq_id3 (m : Mat3) (h : det3 m ≠ 0) : mul3 m (inv3 m) = id3 := by
  simp only [det3] at h
  ext <;> simp only [mul3, inv3, id3, det3] <;> field_simp <;> ring

/-- Closed form of the determinant of the forward matrix of the program. -/
theorem det3_A_eq (kb kr : ℚ) (hb : (1 : ℚ) - kb ≠ 0) (hr : (1 : ℚ) - kr ≠ 0) :
    det3 (A kb kr) = (1 - kr - kb) / (4 * ((1 - kb) * (1 - kr))) := by
  simp only [det3, A]
  field_simp
  ring

/-! ## Claims -/

/-- Claim C1 (code bug evaluation): composing the emitted forward
transform with the emitted inverse transform at the BT.709
weights does NOT reproduce the input within a tolerance of 1 per channel:
pure white (255,255,255) maps forward to exactly (y,cb,cr) = (235,128,128)
and comes back as (255,249,249) — the green and blue channels are off by 6.
The slip: `B[0] *= 65536*255/219; B[1:] *= 65536*255/224` scales the rows
of `B`, while inverting the limited-range level mapping requires scaling
its columns (the y column by `65536*255/219`, the cb and cr columns by
`65536*255/224`). -/
theorem roundTrip_breaks_at_white :
    rgbToYCbCr kb kr 255 255 255 = (235, 128, 128) ∧
    roundTrip kb kr 255 255 255 = (255, 249, 249) := by
  constructor
  · with_unfolding_all decide
  · with_unfolding_all decide

/-- Claim C2: before any scaling, `B` is the exact matrix inverse of the
forward matrix `A` over the embedded rational arithmetic: `A · B` is the
3x3 identity, for every weight pair with `0 < kb`, `0 < kr`, `kb + kr < 1`. -/
theorem A_mul_B_eq_id3 (kb kr : ℚ) (h0 : 0 < kb) (h1 : 0 < kr)
    (h2 : kb + kr < 1) : mul3 (A kb kr) (B kb kr) = id3 := by
  have hb : (1 : ℚ) - kb ≠ 0 := ne_of_gt (by linarith)
  have hr : (1 : ℚ) - kr ≠ 0 := ne_of_gt (by linarith)
  unfold B
  apply mul3_inv3_eq_id3
  rw [det3_A_eq kb kr hb hr]
  apply div_ne_zero (ne_of_gt (by linarith))
  have hb0 : (0 : ℚ) < 1 - kb := by linarith
  have hr0 : (0 : ℚ) < 1 - kr := by linarith
  exact ne_of_gt (mul_pos (by norm_num) (mul_pos hb0 hr0))

/-- Witness for C2 at the BT.709 weights of the program. -/
theorem A_mul_B_eq_id3_witness :
    (0 < kb ∧ 0 < kr ∧ kb + kr < 1) ∧ mul3 (A kb kr) (B kb kr) = id3 :=
  ⟨⟨by with_unfolding_all decide, by with_unfolding_all decide,
     by with_unfolding_all decide⟩,
   A_mul_B_eq_id3 kb kr (by with_unfolding_all decide)
     (by with_unfolding_all decide) (by with_unfolding_all decide)⟩

/-- Claim C3: the forward matrix the program builds equals, entry by
entry, the formulas of the specification; in particular the source entries
`0.5*(1-kb)/(1-kb)` and `0.5*(1.0-kr)/(1-kr)` equal `0.5`. -/
theorem A_eq_specA (kb kr : ℚ) (hb0 : 0 < kb) (hb1 : kb < 1) (hr0 : 0 < kr)
    (hr1 : kr < 1) (hs : kb + kr < 1) : A kb kr = specA kb kr := by
  have hb : (1 : ℚ) - kb ≠ 0 := ne_of_gt (by linarith)
  have hr : (1 : ℚ) - kr ≠ 0 := ne_of_gt (by linarith)
  ext <;> simp only [A, specA] <;>
    first
    | rfl
    | ring1
    | (field_simp; (try ring1); (try norm_num))

/-- Witness for C3 at the BT.709 weights of the program. -/
theorem A_eq_specA_witness :
    (0 < kb ∧ kb < 1 ∧ 0 < kr ∧ kr < 1 ∧ kb + kr < 1) ∧
    A kb kr = specA kb kr :=
  ⟨⟨by with_unfolding_all decide, by with_unfolding_all decide,
    by with_unfolding_all decide, by with_unfolding_all decide,
    by with_unfolding_all decide⟩,
   A_eq_specA kb kr (by with_unfolding_all decide)
     (by with_unfolding_all decide) (by with_unfolding_all decide)
     (by with_unfolding_all decide) (by with_unfolding_all decide)⟩

/-- Claim C4: for every weight pair the program prints exactly the
thirteen lines of the structure given in the specification: a blank line,
`RGB to YCbCr:`, three forward formula lines, a blank line,
`YCbCr to RGB:`, the three offset lines, and three inverse formula lines,
each formula line holding four base-10 signed integers; nothing else. -/
theorem output_matches_format (kb kr : ℚ) :
    ∃ u0 u1 u2 v0 v1 v2 : Row4,
      output kb kr =
        ["", "RGB to YCbCr:",
         exprLine "r" "g" "b" u0, exprLine "r" "g" "b" u1,
         exprLine "r" "g" "b" u2,
         "", "YCbCr to RGB:", "y -= 16", "cb -= 128", "cr -= 128",
         exprLine "y" "cb" "cr" v0, exprLine "y" "cb" "cr" v1,
         exprLine "y" "cb" "cr" v2] :=
  ⟨(fwdRows kb kr).1, (fwdRows kb kr).2.1, (fwdRows kb kr).2.2,
   (invRows kb kr).1, (invRows kb kr).2.1, (invRows kb kr).2.2, rfl⟩

/-- Claim C5: for every weight pair, the forward luma-row bias is exactly
`16*65536+32768 = 1081344`, both forward chroma-row biases are exactly
`128*65536+32768 = 8421376`, and all three inverse-row biases are `32768`. -/
theorem bias_terms (kb kr : ℚ) :
    (fwdRows kb kr).1.bias = 16 * 65536 + 32768 ∧
    (fwdRows kb kr).1.bias = 1081344 ∧
    (fwdRows kb kr).2.1.bias = 128 * 65536 + 32768 ∧
    (fwdRows kb kr).2.1.bias = 8421376 ∧
    (fwdRows kb kr).2.2.bias = 8421376 ∧
    (invRows kb kr).1.bias = 32768 ∧
    (invRows kb kr).2.1.bias = 32768 ∧
    (invRows kb kr).2.2.bias = 32768 :=
  ⟨rfl, by norm_num [fwdRows], rfl, by norm_num [fwdRows],
   by norm_num [fwdRows], rfl, rfl, rfl⟩

/-- Claim C6: the emitted inverse rows are obtained by scaling row 0 of
`B` by `65536*255/219` and rows 1 and 2 by `65536*255/224`, rounding every
entry to the nearest integer, and the printed inverse lines carry exactly
those coefficients. -/
theorem inv_coefficients_from_scaled_B (kb kr : ℚ) :
    invRows kb kr =
      (⟨32768, rnd ((B kb kr).m00 * (65536 * 255 / 219)),
          rnd ((B kb kr).m01 * (65536 * 255 / 219)),
          rnd ((B kb kr).m02 * (65536 * 255 / 219))⟩,
       ⟨32768, rnd ((B kb kr).m10 * (65536 * 255 / 224)),
          rnd ((B kb kr).m11 * (65536 * 255 / 224)),
          rnd ((B kb kr).m12 * (65536 * 255 / 224))⟩,
       ⟨32768, rnd ((B kb kr).m20 * (65536 * 255 / 224)),
          rnd ((B kb kr).m21 * (65536 * 255 / 224)),
          rnd ((B kb kr).m22 * (65536 * 255 / 224))⟩) ∧
    List.drop 10 (output kb kr) =
      [exprLine "y" "cb" "cr" (invRows kb kr).1,
       exprLine "y" "cb" "cr" (invRows kb kr).2.1,
       exprLine "y" "cb" "cr" (invRows kb kr).2.2] :=
  ⟨rfl, rfl⟩

/-- Claim C7: the three forward luma multiplicative coefficients, each
divided by `65536*219/255` and summed, land within `3/(65536*219/255)` of
1, because `kr + (1-kr-kb) + kb = 1` exactly and each rounding moves an
entry by at most one half. -/
theorem luma_row_sum_approx_one (kb kr : ℚ) (h0 : 0 < kb) (h1 : 0 < kr)
    (h2 : kb + kr < 1) :
    |((fwdRows kb kr).1.c0 : ℚ) / (65536 * 219 / 255)
      + ((fwdRows kb kr).1.c1 : ℚ) / (65536 * 219 / 255)
      + ((fwdRows kb kr).1.c2 : ℚ) / (65536 * 219 / 255) - 1|
      ≤ 3 / (65536 * 219 / 255) := by
  have hc0 : (fwdRows kb kr).1.c0 = rnd (kr * (65536 * 219 / 255)) := rfl
  have hc1 : (fwdRows kb kr).1.c1
      = rnd ((1 - kr - kb) * (65536 * 219 / 255)) := rfl
  have hc2 : (fwdRows kb kr).1.c2 = rnd (kb * (65536 * 219 / 255)) := rfl
  have e0 := abs_rnd_sub_le_half (kr * (65536 * 219 / 255))
  have e1 := abs_rnd_sub_le_half ((1 - kr - kb) * (65536 * 219 / 255))
  have e2 := abs_rnd_sub_le_half (kb * (65536 * 219 / 255))
  rw [hc0, hc1, hc2]
  rw [abs_le] at e0 e1 e2 ⊢
  constructor <;> linarith

/-- Witness for C7 at the BT.709 weights of the program. -/
theorem luma_row_sum_approx_one_witness :
    (0 < kb ∧ 0 < kr ∧ kb + kr < 1) ∧
    |((fwdRows kb kr).1.c0 : ℚ) / (65536 * 219 / 255)
      + ((fwdRows kb kr).1.c1 : ℚ) / (65536 * 219 / 255)
      + ((fwdRows kb kr).1.c2 : ℚ) / (65536 * 219 / 255) - 1|
      ≤ 3 / (65536 * 219 / 255) :=
  ⟨⟨by with_unfolding_all decide, by with_unfolding_all decide,
     by with_unfolding_all decide⟩,
   luma_row_sum_approx_one kb kr (by with_unfolding_all decide)
     (by with_unfolding_all decide) (by with_unfolding_all decide)⟩

/-- Claim C8: every weight pair that zeroes a matrix-construction
denominator or makes the forward matrix singular aborts the program
before anything is printed: in the source both matrix construction and
inversion precede the first `print`, so the error value carries no output. -/
theorem malformed_weights_abort (kb kr : ℚ)
    (h : 1 - kb = 0 ∨ 1 - kr = 0 ∨ det3 (A kb kr) = 0) :
    ∃ e : RunError, run kb kr = Except.error e := by
  by_cases hb : 1 - kb = 0
  · exact ⟨RunError.divisionByZero, by simp [run, hb]⟩
  · by_cases hr : 1 - kr = 0
    · exact ⟨RunError.divisionByZero, by simp [run, hb, hr]⟩
    · have hd : det3 (A kb kr) = 0 := by tauto
      exact ⟨RunError.singularMatrix, by simp [run, hb, hr, hd]⟩

/-- Witness for C8: `kb = kr = 1/2` (so `kb + kr = 1`) makes `A` singular
and the run errors out. -/
theorem malformed_weights_abort_witness :
    (1 - (1/2 : ℚ) = 0 ∨ 1 - (1/2 : ℚ) = 0 ∨ det3 (A (1/2) (1/2)) = 0) ∧
    ∃ e : RunError, run (1/2) (1/2) = Except.error e :=
  ⟨Or.inr (Or.inr (by with_unfolding_all decide)),
   malformed_weights_abort (1/2) (1/2)
     (Or.inr (Or.inr (by with_unfolding_all decide)))⟩

/-- Claim C9: the program is deterministic — two runs with equal weight
constants produce byte-identical output text; the embedded output depends
on nothing but `(kb, kr)`. -/
theorem output_deterministic (kb1 kr1 kb2 kr2 : ℚ) (hb : kb1 = kb2)
    (hr : kr1 = kr2) : outputText kb1 kr1 = outputText kb2 kr2 := by
  rw [hb, hr]

/-- Witness for C9: two runs at the BT.709 weights of the program. -/
theorem output_deterministic_witness :
    (kb = kb ∧ kr = kr) ∧ outputText kb kr = outputText kb kr :=
  ⟨⟨rfl, rfl⟩, output_deterministic kb kr kb kr rfl rfl⟩

/-- Claim C10: each chroma row of the unscaled forward matrix sums to 0
exactly; hence the three printed multiplicative coefficients of each
forward chroma row sum to an integer of absolute value at most 2, and on
a gray input `r = g = b = t` the pre-shift chroma value deviates from the
bias `8421376` by exactly that integer times `t`. -/
theorem chroma_rows_balance (kb kr : ℚ) (hb0 : 0 < kb) (hb1 : kb < 1)
    (hr0 : 0 < kr) (hr1 : kr < 1) (hs : kb + kr < 1) :
    ((A kb kr).m10 + (A kb kr).m11 + (A kb kr).m12 = 0) ∧
    ((A kb kr).m20 + (A kb kr).m21 + (A kb kr).m22 = 0) ∧
    |(fwdRows kb kr).2.1.c0 + (fwdRows kb kr).2.1.c1
        + (fwdRows kb kr).2.1.c2| ≤ 2 ∧
    |(fwdRows kb kr).2.2.c0 + (fwdRows kb kr).2.2.c1
        + (fwdRows kb kr).2.2.c2| ≤ 2 ∧
    (∀ t : ℤ, rowPre (fwdRows kb kr).2.1 t t t
        = 8421376 + ((fwdRows kb kr).2.1.c0 + (fwdRows kb kr).2.1.c1
            + (fwdRows kb kr).2.1.c2) * t) ∧
    (∀ t : ℤ, rowPre (fwdRows kb kr).2.2 t t t
        = 8421376 + ((fwdRows kb kr).2.2.c0 + (fwdRows kb kr).2.2.c1
            + (fwdRows kb kr).2.2.c2) * t) := by
  have hb : (1 : ℚ) - kb ≠ 0 := ne_of_gt (by linarith)
  have hr : (1 : ℚ) - kr ≠ 0 := ne_of_gt (by linarith)
  have sum1 : (A kb kr).m10 + (A kb kr).m11 + (A kb kr).m12 = 0 := by
    simp only [A]; field_simp; ring
  have sum2 : (A kb kr).m20 + (A kb kr).m21 + (A kb kr).m22 = 0 := by
    simp only [A]; field_simp; ring
  have key : ∀ a b c : ℚ, a + b + c = 0 →
      |rnd (a * (65536 * 224 / 255)) + rnd (b * (65536 * 224 / 255))
        + rnd (c * (65536 * 224 / 255))| ≤ 2 := by
    intro a b c habc
    have e0 := abs_rnd_sub_le_half (a * (65536 * 224 / 255))
    have e1 := abs_rnd_sub_le_half (b * (65536 * 224 / 255))
    have e2 := abs_rnd_sub_le_half (c * (65536 * 224 / 255))
    rw [abs_le] at e0 e1 e2
    have hq : |((rnd (a * (65536 * 224 / 255)) + rnd (b * (65536 * 224 / 255))
        + rnd (c * (65536 * 224 / 255)) : ℤ) : ℚ)| ≤ 2 := by
      rw [abs_le]
      push_cast
      constructor <;> nlinarith [e0.1, e0.2, e1.1, e1.2, e2.1, e2.2]
    rw [← Int.cast_abs] at hq
    exact_mod_cast hq
  refine ⟨sum1, sum2, key _ _ _ sum1, key _ _ _ sum2, ?_, ?_⟩
  · intro t
    simp only [rowPre]
    have hbias : (fwdRows kb kr).2.1.bias = 8421376 := by norm_num [fwdRows]
    rw [hbias]; ring
  · intro t
    simp only [rowPre]
    have hbias : (fwdRows kb kr).2.2.bias = 8421376 := by norm_num [fwdRows]
    rw [hbias]; ring

/-- Witness for C10 at the BT.709 weights of the program. -/
theorem chroma_rows_balance_witness :
    (0 < kb ∧ kb < 1 ∧ 0 < kr ∧ kr < 1 ∧ kb + kr < 1) ∧
    ((A kb kr).m10 + (A kb kr).m11 + (A kb kr).m12 = 0) :=
  ⟨⟨by with_unfolding_all decide, by with_unfolding_all decide,
    by with_unfolding_all decide, by with_unfolding_all decide,
    by with_unfolding_all decide⟩,
   (chroma_rows_balance kb kr (by with_unfolding_all decide)
     (by with_unfolding_all decide) (by with_unfolding_all decide)
     (by with_unfolding_all decide) (by with_unfolding_all decide)).1⟩

end YCbCr
